import Mathlib

/-!
Verification of the MAE (masked autoencoder) core from mae.py:
patch codec (create_patches / recreate_images), masking strategies
(random_masking / grid_masking), the decoder unshuffle step, and the
loss functions (mae_loss, mae_norm_pix_loss, mae_cls_loss accuracy,
mae_supervised_contrastive_loss).

Tensors are embedded per sample as functions out of Fin types, with
rational entries standing for the float values; jax.vmap batching is
reflected by quantifying over the per-sample inputs.
-/

namespace MAE

/-- Embedding of create_patches (mae.py lines 242-254) for one sample.
The source asserts a square image whose side is divisible by the patch
size, so the image is typed with side h*p where h is the patch-grid
side.  The chain reshape (3,h,p,w,p) / einsum chpwq->hwpqc / reshape
(h*w, p*p*3) means: patch i = gr*h + gc (row-major over the grid) and
inner offset j = pr*(p*3) + pc*3 + ch, reading pixel (ch, gr*p+pr,
gc*p+pc).  Equivalently, entry (i, j) reads channel j % (p*3) % 3,
row (i / h)*p + j / (p*3), column (i % h)*p + (j % (p*3)) / 3. -/
def create_patches (h p : ℕ) (x : Fin 3 → Fin (h*p) → Fin (h*p) → ℚ) :
    Fin (h*h) → Fin (p*p*3) → ℚ :=
  fun i j =>
    x ⟨j.val % (p*3) % 3, Nat.mod_lt _ (by norm_num)⟩
      ⟨(i.val / h) * p + j.val / (p*3), by
        have h1 : i.val / h < h := Nat.div_lt_of_lt_mul i.isLt
        have h2 : j.val / (p*3) < p :=
          Nat.div_lt_of_lt_mul (by
            calc j.val < p*p*3 := j.isLt
              _ = (p*3)*p := by ring)
        nlinarith⟩
      ⟨(i.val % h) * p + (j.val % (p*3)) / 3, by
        have hh : 0 < h := by
          rcases Nat.eq_zero_or_pos h with e | e
          · exact absurd i.isLt (by simp [e])
          · exact e
        have hp3 : 0 < p*3 := by
          rcases Nat.eq_zero_or_pos p with e | e
          · exact absurd j.isLt (by simp [e])
          · omega
        have h1 : i.val % h < h := Nat.mod_lt _ hh
        have h2 : (j.val % (p*3)) / 3 < p :=
          Nat.div_lt_of_lt_mul (by
            calc j.val % (p*3) < p*3 := Nat.mod_lt _ hp3
              _ = 3*p := by ring)
        nlinarith⟩

/-- Embedding of recreate_images (mae.py lines 256-271) for one sample.
The source computes h = int(sqrt L) and asserts h*h == L, so the patch
sequence is typed with length h*h.  The chain reshape (h,w,p,p,3) /
einsum hwpqc->chpwq / reshape (3, h*p, h*p) means pixel (c, r, cc)
reads patch (r/p)*h + cc/p at inner offset (r%p)*(p*3) + (cc%p)*3 + c. -/
def recreate_images (h p : ℕ) (xp : Fin (h*h) → Fin (p*p*3) → ℚ) :
    Fin 3 → Fin (h*p) → Fin (h*p) → ℚ :=
  fun c r cc =>
    xp ⟨(r.val / p) * h + cc.val / p, by
        have h1 : r.val / p < h :=
          Nat.div_lt_of_lt_mul (by
            calc r.val < h*p := r.isLt
              _ = p*h := by ring)
        have h2 : cc.val / p < h :=
          Nat.div_lt_of_lt_mul (by
            calc cc.val < h*p := cc.isLt
              _ = p*h := by ring)
        nlinarith⟩
      ⟨(r.val % p) * (p*3) + (cc.val % p) * 3 + c.val, by
        have hp : 0 < p := by
          rcases Nat.eq_zero_or_pos p with e | e
          · exact absurd r.isLt (by simp [e])
          · exact e
        have h1 : r.val % p < p := Nat.mod_lt _ hp
        have h2 : cc.val % p < p := Nat.mod_lt _ hp
        have h3 : c.val < 3 := c.isLt
        nlinarith⟩

/-- The ordering used to model jnp.argsort on a value vector v: indices are
compared by value, ties broken by index (a stable sort). -/
@[reducible] def argsortRel (L : ℕ) (v : Fin L → ℚ) : Fin L → Fin L → Prop :=
  fun i j => v i < v j ∨ (v i = v j ∧ i ≤ j)

/-- jnp.argsort(v) as a list of indices: the indices 0..L-1 sorted by value. -/
def argsortList (L : ℕ) (v : Fin L → ℚ) : List (Fin L) :=
  List.insertionSort (argsortRel L v) (List.finRange L)

/-- jnp.argsort(v) as a function: position k holds the index of the k-th
smallest value. -/
def argsortFun (L : ℕ) (v : Fin L → ℚ) : Fin L → Fin L :=
  fun k => (argsortList L v).get ⟨k.val, by
    simp only [argsortList, List.length_insertionSort, List.length_finRange]
    exact k.isLt⟩

/-- ids_shuffle of random_masking (mae.py line 283): argsort of the noise. -/
def ids_shuffle (L : ℕ) (noise : Fin L → ℚ) : Fin L → Fin L :=
  argsortFun L noise

/-- ids_restore of random_masking (mae.py line 284): argsort of ids_shuffle
(the integer entries of ids_shuffle are compared as values). -/
def ids_restore (L : ℕ) (noise : Fin L → ℚ) : Fin L → Fin L :=
  argsortFun L (fun i => ((ids_shuffle L noise i : ℕ) : ℚ))

/-- keep = int(L*(1-mask_ratio)) (mae.py line 279); for mask_ratio ≤ 1 the
float truncation is the floor. -/
def keepCount (L : ℕ) (r : ℚ) : ℕ := (⌊(L : ℚ) * (1 - r)⌋).toNat

/-- ids_keep = ids_shuffle[:keep] (mae.py line 286). -/
def randIdsKeep (L : ℕ) (r : ℚ) (noise : Fin L → ℚ) : List (Fin L) :=
  (argsortList L noise).take (keepCount L r)

/-- The binary mask of random_masking (mae.py lines 290-292), expressed in
original patch order: ones, zeroed at the first keep shuffled slots, then
gathered through ids_restore. -/
def randMask (L : ℕ) (r : ℚ) (noise : Fin L → ℚ) : Fin L → ℚ :=
  fun i => if (ids_restore L noise i : ℕ) < keepCount L r then 0 else 1

/-- random_masking (mae.py lines 273-294) for one sample: the visible rows
x[ids_keep], the binary mask, and ids_restore.  The uniform noise drawn from
the key is abstracted as the input noise vector. -/
def random_masking {α : Type} (L : ℕ) (r : ℚ) (noise : Fin L → ℚ) (x : Fin L → α) :
    List α × (Fin L → ℚ) × (Fin L → Fin L) :=
  ((randIdsKeep L r noise).map x, randMask L r noise, ids_restore L noise)

/-- Python range(a, b, s) as a list, for step s ≥ 1. -/
def rangeStep (a b s : ℕ) : List ℕ :=
  (List.range ((b - a + s - 1) / s)).map (fun k => a + k * s)

/-- The column stride keep = int(1/(1-mask_ratio))//2 of grid_masking
(mae.py line 305). -/
def gridStride (r : ℚ) : ℕ := (⌊1 / (1 - r)⌋).toNat / 2

/-- ids_keep of grid_masking (mae.py lines 309-312): every other grid row
(rows 0, 2, 4, ...), and within each selected row every gridStride-th
column, flattened row by row; the grid side is int(sqrt L). -/
def gridIdsKeep (L : ℕ) (r : ℚ) : List ℕ :=
  (rangeStep 0 (Nat.sqrt L) 2).flatMap
    (fun row => rangeStep (row * Nat.sqrt L) ((row + 1) * Nat.sqrt L) (gridStride r))

/-- ids_restore of grid_masking (mae.py line 308): arange(0, L), the identity. -/
def gridIdsRestore (L : ℕ) : Fin L → Fin L := fun i => i

/-- The binary mask of grid_masking (mae.py lines 317-319): ones with zeros
scattered at ids_keep; gathering through the identity ids_restore changes
nothing. -/
def gridMask (L : ℕ) (r : ℚ) : Fin L → ℚ :=
  fun i => if (i : ℕ) ∈ gridIdsKeep L r then 0 else 1

/-- x[ids_keep] of grid_masking (mae.py line 314).  Each index is
bounds-checked; the indices produced by gridIdsKeep are always below L, so
the check never drops an entry. -/
def grid_x_masked {α : Type} (L : ℕ) (r : ℚ) (x : Fin L → α) : List α :=
  (gridIdsKeep L r).filterMap (fun i => if h : i < L then some (x ⟨i, h⟩) else none)

/-- grid_masking (mae.py lines 296-321) for one sample: the assert restricts
the ratio to 0.5 or 0.75 (InvalidArgument otherwise, modelled as none); the
key is ignored; returns the visible rows, the mask and the identity restore
indices. -/
def grid_masking {α : Type} (L : ℕ) (r : ℚ) (x : Fin L → α) :
    Option (List α × (Fin L → ℚ) × (Fin L → Fin L)) :=
  if r = 1/2 ∨ r = 3/4 then
    some (grid_x_masked L r x, gridMask L r, gridIdsRestore L)
  else none

/-- The mask-token padding and gather of MAEDecoder.__call__ (mae.py lines
120-123), per sample, with the class token stripped: the visible rows are
padded with ids_restore.shape[1] + 1 - (len(visible) + 1) copies of the mask
token and the result is gathered through ids_restore. -/
def decoder_unshuffle {α : Type} (L : ℕ) (visible : List α) (mtok : α)
    (restore : Fin L → Fin L) : Fin L → α :=
  fun k => (visible ++ List.replicate (L + 1 - (visible.length + 1)) mtok).getD
    (restore k) mtok

/-- jnp.mean(jnp.square(y - target), axis=-1): the per-patch mean squared
error (mae.py lines 342 and 363). -/
def patch_mse (L d : ℕ) (y t : Fin L → Fin d → ℚ) : Fin L → ℚ :=
  fun l => (∑ j, (y l j - t l j)^2) / (d : ℚ)

/-- mae_loss (mae.py lines 323-344): target = create_patches(x), per-patch
MSE against the decoder output y, then sum(loss*mask)/sum(mask).  The model
forward producing y is abstracted as the input y; the mask is the one the
forward pass returned. -/
def mae_loss (N h p : ℕ) (y : Fin N → Fin (h*h) → Fin (p*p*3) → ℚ)
    (x : Fin N → Fin 3 → Fin (h*p) → Fin (h*p) → ℚ)
    (mask : Fin N → Fin (h*h) → ℚ) : ℚ :=
  (∑ n, ∑ l, patch_mse (h*h) (p*p*3) (y n) (create_patches h p (x n)) l * mask n l)
    / (∑ n, ∑ l, mask n l)

/-- mae_norm_pix_loss (mae.py lines 346-366): as mae_loss but the target
patches are standardized per patch: (target - mean) / (var + 1.e-6)**.5.
The float square root has no exact rational counterpart, so it is abstracted
as the parameter sq; the claims proved about this function do not depend on
the values sq takes. -/
def mae_norm_pix_loss (N h p : ℕ) (sq : ℚ → ℚ)
    (y : Fin N → Fin (h*h) → Fin (p*p*3) → ℚ)
    (x : Fin N → Fin 3 → Fin (h*p) → Fin (h*p) → ℚ)
    (mask : Fin N → Fin (h*h) → ℚ) : ℚ :=
  (∑ n, ∑ l,
    patch_mse (h*h) (p*p*3) (y n)
      (fun l2 j =>
        (create_patches h p (x n) l2 j
            - (∑ j2, create_patches h p (x n) l2 j2) / ((p*p*3 : ℕ) : ℚ))
          / sq ((∑ j2, (create_patches h p (x n) l2 j2
                  - (∑ j3, create_patches h p (x n) l2 j3) / ((p*p*3 : ℕ) : ℚ))^2)
                / ((p*p*3 : ℕ) : ℚ) + 1/1000000)) l
      * mask n l)
    / (∑ n, ∑ l, mask n l)

/-- jax.nn.one_hot(i, K) as a rational row vector. -/
def one_hot (K : ℕ) (i : Fin K) : Fin K → ℚ := fun j => if j = i then 1 else 0

/-- logits.argmax(axis=-1) for one row: the first index attaining the
maximum, as jnp.argmax returns. -/
def argmaxIdx (K : ℕ) (v : Fin K → ℚ) (hK : 0 < K) : Fin K :=
  (List.finRange K).foldl (fun best i => if v best < v i then i else best) ⟨0, hK⟩

/-- preds = jax.nn.one_hot(logits.argmax(axis=-1), labels.shape[1])
(mae.py line 383). -/
def cls_preds (N K : ℕ) (logits : Fin N → Fin K → ℚ) (hK : 0 < K) :
    Fin N → Fin K → ℚ :=
  fun n => one_hot K (argmaxIdx K (logits n) hK)

/-- acc = (preds == labels).mean() (mae.py line 384): the elementwise
boolean comparison of the (N, K) prediction and label matrices, averaged
over all N*K entries. -/
def mae_cls_acc (N K : ℕ) (logits labels : Fin N → Fin K → ℚ) (hK : 0 < K) : ℚ :=
  (∑ n, ∑ j, if cls_preds N K logits hK n j = labels n j then (1:ℚ) else 0)
    / ((N * K : ℕ) : ℚ)

/-- Stated from the claim, for comparison with mae_cls_acc: the exact-match
rate, the fraction of samples whose whole predicted one-hot row equals the
label row. -/
def exact_match_rate (N K : ℕ) (logits labels : Fin N → Fin K → ℚ) (hK : 0 < K) : ℚ :=
  (((Finset.univ.filter
      (fun n : Fin N => cls_preds N K logits hK n = labels n)).card : ℕ) : ℚ)
    / ((N : ℕ) : ℚ)

/-- The numpy view of a (c, H, W) array as a (3, H, W) array, defined when
the element counts match (the validity condition of the reshape on mae.py
line 250): entry (ch, r, cc) reads flat position ch*H*W + r*W + cc of x. -/
def reinterpret3 (c h p : ℕ) (hc : c * ((h*p) * (h*p)) = 3 * ((h*p) * (h*p)))
    (x : Fin c → Fin (h*p) → Fin (h*p) → ℚ) : Fin 3 → Fin (h*p) → Fin (h*p) → ℚ :=
  fun ch r cc =>
    x ⟨(ch.val * ((h*p) * (h*p)) + r.val * (h*p) + cc.val) / ((h*p) * (h*p)), by
        have hp0 : 0 < h*p := Nat.lt_of_le_of_lt (Nat.zero_le _) r.isLt
        have hsq : 0 < (h*p) * (h*p) := Nat.mul_pos hp0 hp0
        have hch : ch.val < 3 := ch.isLt
        have hr : r.val < h*p := r.isLt
        have hcc : cc.val < h*p := cc.isLt
        have ht : ch.val * ((h*p) * (h*p)) + r.val * (h*p) + cc.val
            < ((h*p) * (h*p)) * c := by
          have h3 : ((h*p) * (h*p)) * c = 3 * ((h*p) * (h*p)) := by
            rw [mul_comm]; exact hc
          rw [h3]
          nlinarith
        exact Nat.div_lt_of_lt_mul ht⟩
      ⟨(ch.val * ((h*p) * (h*p)) + r.val * (h*p) + cc.val) % ((h*p) * (h*p)) / (h*p), by
        have hp0 : 0 < h*p := Nat.lt_of_le_of_lt (Nat.zero_le _) r.isLt
        have hsq : 0 < (h*p) * (h*p) := Nat.mul_pos hp0 hp0
        exact Nat.div_lt_of_lt_mul (Nat.mod_lt _ hsq)⟩
      ⟨(ch.val * ((h*p) * (h*p)) + r.val * (h*p) + cc.val) % (h*p), by
        have hp0 : 0 < h*p := Nat.lt_of_le_of_lt (Nat.zero_le _) r.isLt
        exact Nat.mod_lt _ hp0⟩

/-- create_patches (mae.py lines 242-254) for an image with an arbitrary
channel count c: the reshape x.reshape((3, h, p, w, p)) on line 250 is only
defined when the element counts c*H*W and 3*H*W agree (numpy raises
otherwise, modelled as none); when it is defined the array is reinterpreted
as 3-channel and patched as usual. -/
def create_patches_checked (c h p : ℕ) (x : Fin c → Fin (h*p) → Fin (h*p) → ℚ) :
    Option (Fin (h*h) → Fin (p*p*3) → ℚ) :=
  if hc : c * ((h*p) * (h*p)) = 3 * ((h*p) * (h*p)) then
    some (create_patches h p (reinterpret3 c h p hc x))
  else none

/-- Failure of a numpy broadcasting step. -/
inductive BroadcastError where
  | shapeMismatch

/-- numpy broadcast compatibility of two reversed shape lists: compared
dimension by dimension from the right, each pair must be equal or contain
a 1; missing leading dimensions are padded with 1. -/
def dimsCompat : List ℕ → List ℕ → Bool
  | [], _ => true
  | _, [] => true
  | a :: as, b :: bs => (a == b || a == 1 || b == 1) && dimsCompat as bs

/-- numpy broadcast compatibility of two shapes. -/
def broadcastCompat (s1 s2 : List ℕ) : Bool := dimsCompat s1.reverse s2.reverse

/-- mae_supervised_contrastive_loss (mae.py lines 425-434): the body computes
features * (1 - mask) and then returns None.  features has shape (N, L, D)
and mask has shape (N, L), so the elementwise product is a numpy broadcast:
when the shapes are not broadcast-compatible the multiplication raises
(modelled as Except.error shapeMismatch) before the return None line is
reached; when they are compatible the product is computed, discarded, and
None (ok none) is returned. -/
def mae_supervised_contrastive_loss (N L D : ℕ)
    (features : Fin N → Fin L → Fin D → ℚ) (mask : Fin N → Fin L → ℚ) :
    Except BroadcastError (Option ℚ) :=
  if broadcastCompat [N, L, D] [N, L] then Except.ok none
  else Except.error BroadcastError.shapeMismatch

instance (L : ℕ) (v : Fin L → ℚ) : IsTotal (Fin L) (argsortRel L v) := ⟨by
  intro a b
  rcases lt_trichotomy (v a) (v b) with hlt | heq | hgt
  · exact Or.inl (Or.inl hlt)
  · rcases le_total a b with hab | hba
    · exact Or.inl (Or.inr ⟨heq, hab⟩)
    · exact Or.inr (Or.inr ⟨heq.symm, hba⟩)
  · exact Or.inr (Or.inl hgt)⟩

instance (L : ℕ) (v : Fin L → ℚ) : IsTrans (Fin L) (argsortRel L v) := ⟨by
  intro a b c hab hbc
  rcases hab with h1 | ⟨e1, l1⟩ <;> rcases hbc with h2 | ⟨e2, l2⟩
  · exact Or.inl (lt_trans h1 h2)
  · exact Or.inl (by rw [← e2]; exact h1)
  · exact Or.inl (by rw [e1]; exact h2)
  · exact Or.inr ⟨e1.trans e2, le_trans l1 l2⟩⟩

/-- Division of a block-decomposed number: (a*n + b) / n = a when b < n. -/
theorem nat_block_div {n a b : ℕ} (hn : 0 < n) (hb : b < n) : (a * n + b) / n = a := by
  rw [mul_comm, Nat.mul_add_div hn, Nat.div_eq_of_lt hb, add_zero]

/-- Remainder of a block-decomposed number: (a*n + b) % n = b when b < n. -/
theorem nat_block_mod {n a b : ℕ} (hb : b < n) : (a * n + b) % n = b :=
  Nat.mul_add_mod_of_lt hb

/-- Congruence helper for a rank-3 tensor read. -/
theorem tensor3_congr {m k : ℕ} (x : Fin 3 → Fin m → Fin k → ℚ)
    {a a' : Fin 3} {b b' : Fin m} {c c' : Fin k}
    (ha : a = a') (hb : b = b') (hc : c = c') : x a b c = x a' b' c' := by
  rw [ha, hb, hc]

/-- C1: for every image with square spatial dimensions whose side is a
multiple of the patch size, recreating the image from its patches is the
exact inverse of patch creation: recreate_images (create_patches x p) p
equals x entrywise, bit for bit. -/
theorem recreate_create_roundtrip (h p : ℕ) (x : Fin 3 → Fin (h*p) → Fin (h*p) → ℚ) :
    recreate_images h p (create_patches h p x) = x := by
  funext c r cc
  have hp0 : 0 < h * p := Nat.lt_of_le_of_lt (Nat.zero_le _) r.isLt
  have hh : 0 < h := by
    rcases Nat.eq_zero_or_pos h with e | e
    · rw [e] at hp0; simp at hp0
    · exact e
  have hp : 0 < p := by
    rcases Nat.eq_zero_or_pos p with e | e
    · rw [e] at hp0; simp at hp0
    · exact e
  have hp3 : 0 < p*3 := by omega
  have hcp : cc.val % p < p := Nat.mod_lt _ hp
  have hc3 : c.val < 3 := c.isLt
  have hsub : (cc.val % p) * 3 + c.val < p*3 := by omega
  have hIbound : cc.val / p < h :=
    Nat.div_lt_of_lt_mul (by
      calc cc.val < h*p := cc.isLt
        _ = p*h := by ring)
  simp only [recreate_images, create_patches]
  refine tensor3_congr x (Fin.ext ?_) (Fin.ext ?_) (Fin.ext ?_)
  · show ((r.val % p) * (p*3) + (cc.val % p) * 3 + c.val) % (p*3) % 3 = c.val
    rw [add_assoc, nat_block_mod hsub, nat_block_mod hc3]
  · show ((r.val / p) * h + cc.val / p) / h * p
        + ((r.val % p) * (p*3) + (cc.val % p) * 3 + c.val) / (p*3) = r.val
    rw [add_assoc, nat_block_div hp3 hsub, nat_block_div hh hIbound]
    rw [show r.val / p * p + r.val % p = r.val from Nat.div_add_mod' r.val p]
  · show ((r.val / p) * h + cc.val / p) % h * p
        + ((r.val % p) * (p*3) + (cc.val % p) * 3 + c.val) % (p*3) / 3 = cc.val
    rw [add_assoc, nat_block_mod hsub, nat_block_mod hIbound,
      nat_block_div (by norm_num) hc3]
    exact Nat.div_add_mod' cc.val p

theorem argsortList_perm (L : ℕ) (v : Fin L → ℚ) :
    (argsortList L v).Perm (List.finRange L) :=
  List.perm_insertionSort _ _

theorem argsortList_nodup (L : ℕ) (v : Fin L → ℚ) : (argsortList L v).Nodup :=
  ((argsortList_perm L v).nodup_iff).mpr (List.nodup_finRange L)

theorem argsortList_sorted (L : ℕ) (v : Fin L → ℚ) :
    List.Sorted (argsortRel L v) (argsortList L v) :=
  List.sorted_insertionSort _ _

theorem argsortFun_injective (L : ℕ) (v : Fin L → ℚ) :
    Function.Injective (argsortFun L v) := by
  intro a b hab
  have hinj := List.nodup_iff_injective_get.mp (argsortList_nodup L v)
  have h2 := hinj hab
  have h3 : a.val = b.val := by injection h2
  exact Fin.ext h3

theorem argsortFun_bijective (L : ℕ) (v : Fin L → ℚ) :
    Function.Bijective (argsortFun L v) :=
  Finite.injective_iff_bijective.mp (argsortFun_injective L v)

/-- Applying argsort to the value table of a bijection σ of Fin L yields the
inverse permutation of σ: σ composed after it is the identity. -/
theorem argsort_right_inverse (L : ℕ) (σ : Fin L → Fin L) (hσ : Function.Bijective σ)
    (k : Fin L) :
    σ (argsortFun L (fun i => ((σ i : ℕ) : ℚ)) k) = k := by
  have hperm : (argsortList L (fun i => ((σ i : ℕ) : ℚ))).Perm (List.finRange L) :=
    argsortList_perm L _
  have hsorted := argsortList_sorted L (fun i => ((σ i : ℕ) : ℚ))
  have hmapsorted :
      List.Sorted (· ≤ ·) ((argsortList L (fun i => ((σ i : ℕ) : ℚ))).map σ) := by
    refine List.Pairwise.map σ ?_ hsorted
    intro a b hab
    rcases hab with h1 | ⟨e1, _⟩
    · have h1a : ((σ a : ℕ) : ℚ) < ((σ b : ℕ) : ℚ) := h1
      have h1b : (σ a : ℕ) < (σ b : ℕ) := by exact_mod_cast h1a
      exact le_of_lt (Fin.lt_def.mpr h1b)
    · have e1a : ((σ a : ℕ) : ℚ) = ((σ b : ℕ) : ℚ) := e1
      have e1b : (σ a : ℕ) = (σ b : ℕ) := by exact_mod_cast e1a
      exact le_of_eq (Fin.ext e1b)
  have hmapperm :
      ((argsortList L (fun i => ((σ i : ℕ) : ℚ))).map σ).Perm (List.finRange L) := by
    refine (hperm.map σ).trans ?_
    have hcoe : List.map (⇑(Equiv.ofBijective σ hσ)) (List.finRange L)
        = List.map σ (List.finRange L) := rfl
    have := Equiv.Perm.map_finRange_perm (Equiv.ofBijective σ hσ)
    rwa [hcoe] at this
  have hfinsorted : List.Sorted (· ≤ ·) (List.finRange L) :=
    (List.pairwise_lt_finRange L).imp (fun h => le_of_lt h)
  have heq : (argsortList L (fun i => ((σ i : ℕ) : ℚ))).map σ = List.finRange L :=
    List.eq_of_perm_of_sorted hmapperm hmapsorted hfinsorted
  have hlen : k.val < ((argsortList L (fun i => ((σ i : ℕ) : ℚ))).map σ).length := by
    simp only [List.length_map, argsortList, List.length_insertionSort,
      List.length_finRange]
    exact k.isLt
  have e1 : σ (argsortFun L (fun i => ((σ i : ℕ) : ℚ)) k)
      = ((argsortList L (fun i => ((σ i : ℕ) : ℚ))).map σ).get ⟨k.val, hlen⟩ := by
    simp [argsortFun, List.get_eq_getElem, List.getElem_map]
  rw [e1]
  simp only [List.get_eq_getElem, heq, List.getElem_finRange, Fin.cast_mk]

/-- ids_shuffle applied after ids_restore is the identity. -/
theorem shuffle_restore_id (L : ℕ) (noise : Fin L → ℚ) (k : Fin L) :
    ids_shuffle L noise (ids_restore L noise k) = k :=
  argsort_right_inverse L (ids_shuffle L noise) (argsortFun_bijective L noise) k

/-- ids_restore applied after ids_shuffle is the identity. -/
theorem restore_shuffle_id (L : ℕ) (noise : Fin L → ℚ) (k : Fin L) :
    ids_restore L noise (ids_shuffle L noise k) = k := by
  have hinj := (argsortFun_bijective L noise).injective
  apply hinj
  exact shuffle_restore_id L noise (ids_shuffle L noise k)

theorem keepCount_le (L : ℕ) (r : ℚ) (hr0 : 0 ≤ r) : keepCount L r ≤ L := by
  have hle : (L : ℚ) * (1 - r) ≤ (L : ℚ) := by nlinarith [Nat.cast_nonneg (α := ℚ) L]
  have hfloor : ⌊(L : ℚ) * (1 - r)⌋ ≤ (L : ℤ) := by
    calc ⌊(L : ℚ) * (1 - r)⌋ ≤ ⌊(L : ℚ)⌋ := Int.floor_le_floor hle
      _ = (L : ℤ) := Int.floor_natCast L
  exact Int.toNat_le.mpr hfloor

/-- C4: ids_restore is the inverse permutation of the noise-argsort shuffle
(restore after shuffle, and shuffle after restore, are the identity), and
the mask in original patch order is 0 exactly at the indices appearing among
the first keep entries of the shuffle, and 1 everywhere else. -/
theorem random_masking_restore_inverse (L : ℕ) (r : ℚ) (noise : Fin L → ℚ)
    (hr0 : 0 ≤ r) (hr1 : r < 1) :
    (∀ i, ids_restore L noise (ids_shuffle L noise i) = i) ∧
    (∀ k, ids_shuffle L noise (ids_restore L noise k) = k) ∧
    (∀ i, randMask L r noise i = 0 ↔
      ∃ k : Fin L, (k : ℕ) < keepCount L r ∧ ids_shuffle L noise k = i) ∧
    (∀ i, randMask L r noise i = 0 ∨ randMask L r noise i = 1) := by
  refine ⟨restore_shuffle_id L noise, shuffle_restore_id L noise, ?_, ?_⟩
  · intro i
    unfold randMask
    by_cases hlt : (ids_restore L noise i : ℕ) < keepCount L r
    · simp only [hlt, if_true, true_iff]
      exact ⟨ids_restore L noise i, hlt, shuffle_restore_id L noise i⟩
    · simp only [hlt, if_false]
      constructor
      · intro h; exact absurd h one_ne_zero
      · rintro ⟨k, hk, hki⟩
        exfalso
        apply hlt
        have : ids_restore L noise i = k := by
          rw [← hki, restore_shuffle_id]
        rw [this]; exact hk
  · intro i
    unfold randMask
    by_cases hlt : (ids_restore L noise i : ℕ) < keepCount L r <;> simp [hlt]

theorem random_masking_restore_inverse_witness :
    (∀ i, ids_restore 4 (fun _ => 0) (ids_shuffle 4 (fun _ => 0) i) = i) ∧
    (∀ k, ids_shuffle 4 (fun _ => 0) (ids_restore 4 (fun _ => 0) k) = k) ∧
    (∀ i, randMask 4 (3/4) (fun _ => 0) i = 0 ↔
      ∃ k : Fin 4, (k : ℕ) < keepCount 4 (3/4) ∧ ids_shuffle 4 (fun _ => 0) k = i) ∧
    (∀ i, randMask 4 (3/4) (fun _ => 0) i = 0 ∨ randMask 4 (3/4) (fun _ => 0) i = 1) :=
  random_masking_restore_inverse 4 (3/4) (fun _ => 0) (by norm_num) (by norm_num)

/-- C3: for every per-sample input of length L and mask_ratio in [0,1),
random masking keeps exactly keep = floor(L*(1-mask_ratio)) rows, and the
binary mask sums to exactly L - keep. -/
theorem random_masking_conservation {α : Type} (L : ℕ) (r : ℚ) (noise : Fin L → ℚ)
    (x : Fin L → α) (hr0 : 0 ≤ r) (hr1 : r < 1) :
    ((random_masking L r noise x).1.length = keepCount L r) ∧
    ((keepCount L r : ℤ) = ⌊(L : ℚ) * (1 - r)⌋) ∧
    (∑ i, randMask L r noise i = ((L - keepCount L r : ℕ) : ℚ)) := by
  have hkeep : keepCount L r ≤ L := keepCount_le L r hr0
  refine ⟨?_, ?_, ?_⟩
  · simp only [random_masking, randIdsKeep, List.length_map, List.length_take,
      argsortList, List.length_insertionSort, List.length_finRange]
    exact Nat.min_eq_left hkeep
  · have hnn : (0 : ℚ) ≤ (L : ℚ) * (1 - r) := by
      have : (0:ℚ) ≤ (L : ℚ) := Nat.cast_nonneg L
      nlinarith
    exact Int.toNat_of_nonneg (Int.floor_nonneg.mpr hnn)
  · have hreindex : ∑ i, randMask L r noise i
        = ∑ j : Fin L, (if (j : ℕ) < keepCount L r then (0:ℚ) else 1) := by
      exact ((argsortFun_bijective L (fun i => ((ids_shuffle L noise i : ℕ) : ℚ))).sum_comp
        (fun j => if (j : ℕ) < keepCount L r then (0:ℚ) else 1)).symm ▸ rfl
    rw [hreindex]
    rw [Fin.sum_univ_eq_sum_range (fun m => if m < keepCount L r then (0:ℚ) else 1) L]
    rw [Finset.range_eq_Ico,
      ← Finset.sum_Ico_consecutive _ (Nat.zero_le (keepCount L r)) hkeep]
    have h1 : ∑ m ∈ Finset.Ico 0 (keepCount L r),
        (if m < keepCount L r then (0:ℚ) else 1) = 0 := by
      refine Finset.sum_eq_zero ?_
      intro m hm
      rw [Finset.mem_Ico] at hm
      simp [hm.2]
    have h2 : ∑ m ∈ Finset.Ico (keepCount L r) L,
        (if m < keepCount L r then (0:ℚ) else 1) = ((L - keepCount L r : ℕ) : ℚ) := by
      rw [Finset.sum_congr rfl (fun m hm => ?_)]
      · rw [Finset.sum_const, Nat.card_Ico, nsmul_eq_mul, mul_one]
      · rw [Finset.mem_Ico] at hm
        simp [Nat.not_lt_of_le hm.1]
    rw [h1, h2, zero_add]

theorem random_masking_conservation_witness :
    ((random_masking 4 (1/2 : ℚ) (fun _ => 0) (fun i => (i : ℚ))).1.length
      = keepCount 4 (1/2)) ∧
    ((keepCount 4 (1/2 : ℚ) : ℤ) = ⌊(4 : ℚ) * (1 - 1/2)⌋) ∧
    (∑ i, randMask 4 (1/2 : ℚ) (fun _ => 0) i = ((4 - keepCount 4 (1/2) : ℕ) : ℚ)) :=
  random_masking_conservation 4 (1/2) (fun _ => 0) (fun i => (i : ℚ))
    (by norm_num) (by norm_num)

/-- C2 (amended, random variant): under random masking, concatenating the
visible subset with mask tokens and gathering through ids_restore, as the
decoder does, puts each visible patch back at its original grid index and a
mask token at every hidden index. -/
theorem random_unshuffle_restores_order {α : Type} (L : ℕ) (r : ℚ) (noise : Fin L → ℚ)
    (x : Fin L → α) (mtok : α) (hr0 : 0 ≤ r) (hr1 : r < 1) (k : Fin L) :
    decoder_unshuffle L (random_masking L r noise x).1 mtok (ids_restore L noise) k
      = if randMask L r noise k = 0 then x k else mtok := by
  have hkeep : keepCount L r ≤ L := keepCount_le L r hr0
  have hslen : (argsortList L noise).length = L := by
    simp [argsortList, List.length_insertionSort, List.length_finRange]
  have hvlen : ((random_masking L r noise x).1).length = keepCount L r := by
    simp only [random_masking, randIdsKeep, List.length_map, List.length_take, hslen]
    exact Nat.min_eq_left hkeep
  unfold decoder_unshuffle
  rw [List.getD_eq_getElem?_getD]
  by_cases hlt : (ids_restore L noise k : ℕ) < keepCount L r
  · have hmask : randMask L r noise k = 0 := by simp [randMask, hlt]
    rw [if_pos hmask]
    have hidx : (ids_restore L noise k : ℕ) < ((random_masking L r noise x).1).length := by
      rw [hvlen]; exact hlt
    rw [List.getElem?_append_left hidx]
    have hsl : (ids_restore L noise k : ℕ) < (argsortList L noise).length := by
      rw [hslen]; exact (ids_restore L noise k).isLt
    have hval : ((random_masking L r noise x).1)[(ids_restore L noise k : ℕ)]?
        = some (x (ids_shuffle L noise (ids_restore L noise k))) := by
      simp only [random_masking, randIdsKeep, List.getElem?_map,
        List.getElem?_take_of_lt hlt, List.getElem?_eq_getElem hsl, Option.map_some]
      rfl
    rw [hval, Option.getD_some, shuffle_restore_id]
  · have hmask : randMask L r noise k = 1 := by simp [randMask, hlt]
    rw [hmask, if_neg one_ne_zero]
    have hge : ((random_masking L r noise x).1).length ≤ (ids_restore L noise k : ℕ) := by
      rw [hvlen]; omega
    rw [List.getElem?_append_right hge]
    rcases Nat.lt_or_ge ((ids_restore L noise k : ℕ) - ((random_masking L r noise x).1).length)
        (L + 1 - (((random_masking L r noise x).1).length + 1)) with hc | hc
    · rw [List.getElem?_replicate, if_pos hc, Option.getD_some]
    · rw [List.getElem?_replicate, if_neg (Nat.not_lt_of_le hc)]
      rfl

theorem random_unshuffle_restores_order_witness :
    decoder_unshuffle 4 (random_masking 4 (1/2 : ℚ) (fun _ => 0) (fun i => (i : ℚ))).1
      (99 : ℚ) (ids_restore 4 (fun _ => 0)) 2
      = if randMask 4 (1/2 : ℚ) (fun _ => 0) 2 = 0 then ((2 : Fin 4) : ℚ) else 99 :=
  random_unshuffle_restores_order 4 (1/2) (fun _ => 0) (fun i => (i : ℚ)) 99
    (by norm_num) (by norm_num) 2

/-- C2 counterexample: under grid masking with ratio 0.5 on a 4-by-4 patch
grid, the identity restore permutation does not put visible patches back at
their original indices: original position 4 is hidden (mask 1) yet the
decoder gather places the visible patch from original position 8 there
instead of a mask token. -/
theorem grid_unshuffle_counterexample :
    decoder_unshuffle 16 (grid_x_masked 16 (1/2 : ℚ) (fun i => (i : ℚ))) (99 : ℚ)
        (gridIdsRestore 16) 4
      ≠ (if gridMask 16 (1/2 : ℚ) 4 = 0 then ((4 : Fin 16) : ℚ) else 99) := by
  have h16 : Nat.sqrt 16 = 4 := by
    rw [show (16:ℕ) = 4*4 by norm_num]
    exact Nat.sqrt_eq 4
  have hs : gridStride (1/2) = 1 := by
    rw [gridStride, show (1 : ℚ) / (1 - 1/2) = 2 by norm_num]
    norm_num
    decide
  simp only [grid_x_masked, gridIdsKeep, gridMask, decoder_unshuffle, gridIdsRestore,
    h16, hs]
  decide

theorem rangeStep_length (a b s : ℕ) : (rangeStep a b s).length = (b - a + s - 1) / s := by
  simp [rangeStep]

theorem mem_rangeStep {a b s x : ℕ} (hs : 0 < s) (hx : x ∈ rangeStep a b s) :
    a ≤ x ∧ x < b := by
  simp only [rangeStep, List.mem_map, List.mem_range] at hx
  obtain ⟨k, hk, rfl⟩ := hx
  refine ⟨Nat.le_add_right a (k*s), ?_⟩
  have h1 : s * (k+1) ≤ s * ((b - a + s - 1) / s) :=
    Nat.mul_le_mul_left s (Nat.succ_le_of_lt hk)
  have h2 : (b - a + s - 1) / s * s ≤ b - a + s - 1 := Nat.div_mul_le_self _ s
  have h3 : s * ((b - a + s - 1) / s) = (b - a + s - 1) / s * s := by ring
  have h4 : s * (k+1) = k * s + s := by ring
  omega

theorem rangeStep_nodup (a b s : ℕ) (hs : 0 < s) : (rangeStep a b s).Nodup := by
  refine List.Nodup.map ?_ (List.nodup_range _)
  intro k1 k2 hk
  have h0 : a + k1 * s = a + k2 * s := hk
  have h1 : k1 * s = k2 * s := by omega
  exact Nat.eq_of_mul_eq_mul_right hs h1

theorem rangeStep_pairwise_lt (a b s : ℕ) (hs : 0 < s) :
    (rangeStep a b s).Pairwise (· < ·) := by
  unfold rangeStep
  rw [List.pairwise_map]
  refine (List.pairwise_lt_range _).imp ?_
  intro k1 k2 h
  have h1 : k1 * s < k2 * s := (Nat.mul_lt_mul_right hs).mpr h
  omega

theorem gridIdsKeep_nodup (L : ℕ) (r : ℚ) (hs : 0 < gridStride r) :
    (gridIdsKeep L r).Nodup := by
  unfold gridIdsKeep
  rw [List.nodup_flatMap]
  constructor
  · intro row _
    exact rangeStep_nodup _ _ _ hs
  · refine (rangeStep_pairwise_lt 0 (Nat.sqrt L) 2 (by norm_num)).imp ?_
    intro r1 r2 hlt x hx1 hx2
    have h1 := mem_rangeStep hs hx1
    have h2 := mem_rangeStep hs hx2
    have hmul : (r1 + 1) * Nat.sqrt L ≤ r2 * Nat.sqrt L :=
      Nat.mul_le_mul_right _ (Nat.succ_le_of_lt hlt)
    omega

theorem gridIdsKeep_bounded (L : ℕ) (r : ℚ) (hs : 0 < gridStride r) :
    ∀ x ∈ gridIdsKeep L r, x < L := by
  intro x hx
  unfold gridIdsKeep at hx
  rw [List.mem_flatMap] at hx
  obtain ⟨row, hrow, hxr⟩ := hx
  have hr := mem_rangeStep (by norm_num : (0:ℕ) < 2) hrow
  have hxb := mem_rangeStep hs hxr
  have h1 : (row + 1) * Nat.sqrt L ≤ Nat.sqrt L * Nat.sqrt L :=
    Nat.mul_le_mul_right _ (Nat.succ_le_of_lt hr.2)
  have h2 : Nat.sqrt L * Nat.sqrt L ≤ L := Nat.sqrt_le L
  omega

theorem gridIdsKeep_length (n : ℕ) (r : ℚ) (hs : gridStride r = 2) :
    (gridIdsKeep (n*n) r).length = ((n+1)/2) * ((n+1)/2) := by
  unfold gridIdsKeep
  rw [Nat.sqrt_eq n, List.length_flatMap]
  have hmap : List.map (List.length ∘ fun row => rangeStep (row * n) ((row+1) * n) (gridStride r))
      (rangeStep 0 n 2) = List.map (fun _ => (n+1)/2) (rangeStep 0 n 2) := by
    refine List.map_congr_left ?_
    intro row _
    simp only [Function.comp_apply, rangeStep_length, hs]
    congr 1
    have : (row + 1) * n = row * n + n := by ring
    omega
  rw [hmap, List.map_const', List.sum_const_nat, rangeStep_length]
  simp

theorem card_filter_mem_list (L : ℕ) (ids : List ℕ) (hnd : ids.Nodup)
    (hlt : ∀ i ∈ ids, i < L) :
    (Finset.univ.filter (fun i : Fin L => (i : ℕ) ∈ ids)).card = ids.length := by
  rw [← List.toFinset_card_of_nodup hnd]
  refine Finset.card_bij (fun (i : Fin L) _ => (i : ℕ)) ?_ ?_ ?_
  · intro a ha
    rw [List.mem_toFinset]
    exact (Finset.mem_filter.mp ha).2
  · intro a _ b _ hab
    exact Fin.ext hab
  · intro b hb
    rw [List.mem_toFinset] at hb
    exact ⟨⟨b, hlt b hb⟩, Finset.mem_filter.mpr ⟨Finset.mem_univ _, hb⟩, rfl⟩

theorem gridMask_zero_iff (L : ℕ) (r : ℚ) (i : Fin L) :
    gridMask L r i = 0 ↔ (i : ℕ) ∈ gridIdsKeep L r := by
  unfold gridMask
  by_cases h : (i : ℕ) ∈ gridIdsKeep L r <;> simp [h]

/-- C5 counterexample: with mask_ratio 0.75 on an 8-by-8 patch grid the mask
produced by grid_masking has 16 zeros, not the nb_patches/2 * nb_patches/4
= 8 zeros the claim states. -/
theorem grid_masking_count_counterexample :
    (Finset.univ.filter (fun i : Fin 64 => gridMask 64 (3/4 : ℚ) i = 0)).card ≠ 8 := by
  have h64 : Nat.sqrt 64 = 8 := by
    rw [show (64:ℕ) = 8*8 by norm_num]
    exact Nat.sqrt_eq 8
  have hs : gridStride (3/4) = 2 := by
    rw [gridStride, show (1 : ℚ) / (1 - 3/4) = 4 by norm_num]
    norm_num
    decide
  simp only [gridMask, gridIdsKeep, h64, hs]
  decide

/-- C5 (amended): grid masking fails with InvalidArgument (modelled as none)
for every mask_ratio outside 0.5 and 0.75; and with mask_ratio 0.75 on an
n-by-n patch grid it produces a mask with exactly ceil(n/2) * ceil(n/2)
zeros - for an 8-by-8 grid, 16 visible patches out of 64 (keeping every
second column of every second row), not 8. -/
theorem grid_masking_validity_and_count :
    (∀ (L : ℕ) (r : ℚ) (x : Fin L → ℚ), ¬(r = 1/2 ∨ r = 3/4) →
      grid_masking L r x = none) ∧
    (∀ n : ℕ,
      (Finset.univ.filter (fun i : Fin (n*n) => gridMask (n*n) (3/4 : ℚ) i = 0)).card
        = ((n+1)/2) * ((n+1)/2)) := by
  constructor
  · intro L r x hr
    unfold grid_masking
    rw [if_neg hr]
  · intro n
    have hs : gridStride (3/4) = 2 := by
      rw [gridStride, show (1 : ℚ) / (1 - 3/4) = 4 by norm_num]
      norm_num
      decide
    have hspos : 0 < gridStride (3/4 : ℚ) := by rw [hs]; norm_num
    have hfilter :
        (Finset.univ.filter (fun i : Fin (n*n) => gridMask (n*n) (3/4:ℚ) i = 0))
          = Finset.univ.filter
              (fun i : Fin (n*n) => (i : ℕ) ∈ gridIdsKeep (n*n) (3/4)) := by
      refine Finset.filter_congr ?_
      intro i _
      exact gridMask_zero_iff (n*n) (3/4) i
    rw [hfilter,
      card_filter_mem_list _ _ (gridIdsKeep_nodup _ _ hspos) (gridIdsKeep_bounded _ _ hspos),
      gridIdsKeep_length n (3/4) hs]

theorem grid_masking_validity_and_count_witness :
    grid_masking 16 (3/5 : ℚ) (fun i => (i : ℚ)) = none ∧
    (Finset.univ.filter (fun i : Fin 64 => gridMask 64 (3/4 : ℚ) i = 0)).card = 16 := by
  constructor
  · exact grid_masking_validity_and_count.1 16 (3/5) (fun i => (i : ℚ)) (by norm_num)
  · exact grid_masking_validity_and_count.2 8

/-- C6: with a binary mask, the plain reconstruction loss
sum(per_patch_mse * mask) / sum(mask) equals the mean per-patch MSE over the
hidden patches only; visible patches (mask 0) contribute exactly zero to the
numerator. -/
theorem mae_loss_hidden_mean (N h p : ℕ)
    (y : Fin N → Fin (h*h) → Fin (p*p*3) → ℚ)
    (x : Fin N → Fin 3 → Fin (h*p) → Fin (h*p) → ℚ)
    (mask : Fin N → Fin (h*h) → ℚ)
    (hbin : ∀ n l, mask n l = 0 ∨ mask n l = 1) :
    mae_loss N h p y x mask
      = (∑ q ∈ Finset.univ.filter (fun q : Fin N × Fin (h*h) => mask q.1 q.2 = 1),
          patch_mse (h*h) (p*p*3) (y q.1) (create_patches h p (x q.1)) q.2)
        / ((Finset.univ.filter
            (fun q : Fin N × Fin (h*h) => mask q.1 q.2 = 1)).card : ℚ) := by
  unfold mae_loss
  have hnum : (∑ n, ∑ l,
        patch_mse (h*h) (p*p*3) (y n) (create_patches h p (x n)) l * mask n l)
      = ∑ q ∈ Finset.univ.filter (fun q : Fin N × Fin (h*h) => mask q.1 q.2 = 1),
          patch_mse (h*h) (p*p*3) (y q.1) (create_patches h p (x q.1)) q.2 := by
    rw [← Fintype.sum_prod_type
      (f := fun q : Fin N × Fin (h*h) =>
        patch_mse (h*h) (p*p*3) (y q.1) (create_patches h p (x q.1)) q.2 * mask q.1 q.2)]
    rw [← Finset.sum_filter_add_sum_filter_not Finset.univ
      (fun q : Fin N × Fin (h*h) => mask q.1 q.2 = 1)]
    have hone : ∑ q ∈ Finset.univ.filter (fun q : Fin N × Fin (h*h) => mask q.1 q.2 = 1),
        patch_mse (h*h) (p*p*3) (y q.1) (create_patches h p (x q.1)) q.2 * mask q.1 q.2
        = ∑ q ∈ Finset.univ.filter (fun q : Fin N × Fin (h*h) => mask q.1 q.2 = 1),
          patch_mse (h*h) (p*p*3) (y q.1) (create_patches h p (x q.1)) q.2 := by
      refine Finset.sum_congr rfl ?_
      intro q hq
      rw [(Finset.mem_filter.mp hq).2, mul_one]
    have hzero : ∑ q ∈ Finset.univ.filter
        (fun q : Fin N × Fin (h*h) => ¬ mask q.1 q.2 = 1),
        patch_mse (h*h) (p*p*3) (y q.1) (create_patches h p (x q.1)) q.2 * mask q.1 q.2
        = 0 := by
      refine Finset.sum_eq_zero ?_
      intro q hq
      rcases hbin q.1 q.2 with h0 | h1
      · rw [h0, mul_zero]
      · exact absurd h1 (Finset.mem_filter.mp hq).2
    rw [hone, hzero, add_zero]
  have hden : (∑ n, ∑ l, mask n l)
      = ((Finset.univ.filter
          (fun q : Fin N × Fin (h*h) => mask q.1 q.2 = 1)).card : ℚ) := by
    rw [← Fintype.sum_prod_type (f := fun q : Fin N × Fin (h*h) => mask q.1 q.2)]
    rw [← Finset.sum_filter_add_sum_filter_not Finset.univ
      (fun q : Fin N × Fin (h*h) => mask q.1 q.2 = 1)]
    have hone : ∑ q ∈ Finset.univ.filter (fun q : Fin N × Fin (h*h) => mask q.1 q.2 = 1),
        mask q.1 q.2
        = ((Finset.univ.filter
            (fun q : Fin N × Fin (h*h) => mask q.1 q.2 = 1)).card : ℚ) := by
      rw [Finset.sum_congr rfl (fun q hq => (Finset.mem_filter.mp hq).2)]
      rw [Finset.sum_const, nsmul_eq_mul, mul_one]
    have hzero : ∑ q ∈ Finset.univ.filter
        (fun q : Fin N × Fin (h*h) => ¬ mask q.1 q.2 = 1), mask q.1 q.2 = 0 := by
      refine Finset.sum_eq_zero ?_
      intro q hq
      rcases hbin q.1 q.2 with h0 | h1
      · exact h0
      · exact absurd h1 (Finset.mem_filter.mp hq).2
    rw [hone, hzero, add_zero]
  rw [hnum, hden]

theorem mae_loss_hidden_mean_witness :
    mae_loss 1 1 1 (fun _ _ _ => 0) (fun _ _ _ _ => 0) (fun _ _ => 1)
      = (∑ q ∈ Finset.univ.filter (fun q : Fin 1 × Fin (1*1) => (1:ℚ) = 1),
          patch_mse (1*1) (1*1*3) ((fun (_ : Fin 1) (_ : Fin (1*1)) (_ : Fin (1*1*3)) =>
            (0:ℚ)) q.1) (create_patches 1 1 ((fun (_ : Fin 1) (_ : Fin 3) (_ : Fin (1*1))
            (_ : Fin (1*1)) => (0:ℚ)) q.1)) q.2)
        / ((Finset.univ.filter (fun q : Fin 1 × Fin (1*1) => (1:ℚ) = 1)).card : ℚ) :=
  mae_loss_hidden_mean 1 1 1 (fun _ _ _ => 0) (fun _ _ _ _ => 0) (fun _ _ => 1)
    (fun _ _ => Or.inr rfl)

/-- C10: both reconstruction losses divide by sum(mask) with no guard; with
mask_ratio 0, random masking keeps every patch and the mask is identically
zero, so the denominator is zero, the numerator is zero, and each loss
returns the quotient 0/0 rather than failing (in this rational embedding
the convention renders 0/0 as 0; the float code yields NaN). -/
theorem loss_zero_mask_div_zero (N h p : ℕ) (sq : ℚ → ℚ)
    (y : Fin N → Fin (h*h) → Fin (p*p*3) → ℚ)
    (x : Fin N → Fin 3 → Fin (h*p) → Fin (h*p) → ℚ)
    (noise : Fin N → Fin (h*h) → ℚ) :
    (∀ n l, randMask (h*h) 0 (noise n) l = 0) ∧
    (∑ n, ∑ l, randMask (h*h) 0 (noise n) l) = 0 ∧
    mae_loss N h p y x (fun n => randMask (h*h) 0 (noise n)) = 0 / 0 ∧
    mae_norm_pix_loss N h p sq y x (fun n => randMask (h*h) 0 (noise n)) = 0 / 0 := by
  have hkeep : keepCount (h*h) 0 = h*h := by
    unfold keepCount
    rw [show (1:ℚ) - 0 = 1 by ring, mul_one, Int.floor_natCast]
    exact Int.toNat_natCast _
  have hz : ∀ n l, randMask (h*h) 0 (noise n) l = 0 := by
    intro n l
    unfold randMask
    rw [if_pos]
    rw [hkeep]
    exact (ids_restore (h*h) (noise n) l).isLt
  have hsum : (∑ n, ∑ l, randMask (h*h) 0 (noise n) l) = 0 := by
    refine Finset.sum_eq_zero fun n _ => Finset.sum_eq_zero fun l _ => hz n l
  refine ⟨hz, hsum, ?_, ?_⟩
  · unfold mae_loss
    rw [hsum]
    have hn : (∑ n, ∑ l, patch_mse (h*h) (p*p*3) (y n) (create_patches h p (x n)) l
        * randMask (h*h) 0 (noise n) l) = 0 := by
      refine Finset.sum_eq_zero fun n _ => Finset.sum_eq_zero fun l _ => ?_
      rw [hz, mul_zero]
    rw [hn]
  · unfold mae_norm_pix_loss
    rw [hsum]
    have hn : (∑ n, ∑ l,
        patch_mse (h*h) (p*p*3) (y n)
          (fun l2 j =>
            (create_patches h p (x n) l2 j
                - (∑ j2, create_patches h p (x n) l2 j2) / ((p*p*3 : ℕ) : ℚ))
              / sq ((∑ j2, (create_patches h p (x n) l2 j2
                      - (∑ j3, create_patches h p (x n) l2 j3) / ((p*p*3 : ℕ) : ℚ))^2)
                    / ((p*p*3 : ℕ) : ℚ) + 1/1000000)) l
          * randMask (h*h) 0 (noise n) l) = 0 := by
      refine Finset.sum_eq_zero fun n _ => Finset.sum_eq_zero fun l _ => ?_
      rw [hz, mul_zero]
    rw [hn]

theorem one_hot_row_agreements {K : ℕ} (a b : Fin K) (hab : a ≠ b) :
    (∑ j, if one_hot K a j = one_hot K b j then (1:ℚ) else 0) = (K : ℚ) - 2 := by
  have h2 : 2 ≤ K := by
    rcases Nat.lt_or_ge K 2 with hlt | hge
    · interval_cases K
      · exact absurd a.isLt (by norm_num)
      · exact absurd (Subsingleton.elim a b) hab
    · exact hge
  have hset : Finset.univ.filter (fun j : Fin K => one_hot K a j = one_hot K b j)
      = Finset.univ \ {a, b} := by
    ext j
    simp only [Finset.mem_filter, Finset.mem_univ, true_and, Finset.mem_sdiff,
      Finset.mem_insert, Finset.mem_singleton]
    unfold one_hot
    by_cases ja : j = a <;> by_cases jb : j = b <;>
      simp [ja, jb, hab, Ne.symm hab]
  rw [Finset.sum_boole, hset]
  rw [Finset.card_sdiff (by simp)]
  rw [Finset.card_univ, Fintype.card_fin,
    Finset.card_insert_of_not_mem (by simp [hab]), Finset.card_singleton]
  rw [Nat.cast_sub h2]
  norm_num

/-- C8 (amended): the accuracy returned by the classification loss is the
elementwise agreement rate between the one-hot prediction matrix and the
label matrix, not the exact-match rate: for one-hot labels it equals
1 - 2*(N - M)/(N*K) where M is the number of exactly matched samples, while
the exact-match rate is M/N; the two agree only when K = 2 or M = N. -/
theorem cls_accuracy_agreement_rate (N K : ℕ) (logits labels : Fin N → Fin K → ℚ)
    (hK : 0 < K) (hN : 0 < N)
    (hone : ∀ n, ∃ b, labels n = one_hot K b) :
    mae_cls_acc N K logits labels hK
      = 1 - 2 * ((N : ℚ) - ((Finset.univ.filter
          (fun n : Fin N => cls_preds N K logits hK n = labels n)).card : ℚ))
        / ((N : ℚ) * (K : ℚ)) ∧
    exact_match_rate N K logits labels hK
      = ((Finset.univ.filter
          (fun n : Fin N => cls_preds N K logits hK n = labels n)).card : ℚ)
        / (N : ℚ) := by
  constructor
  · have hrow : ∀ n, (∑ j, if cls_preds N K logits hK n j = labels n j then (1:ℚ) else 0)
        = if cls_preds N K logits hK n = labels n then (K:ℚ) else (K:ℚ) - 2 := by
      intro n
      by_cases hp : cls_preds N K logits hK n = labels n
      · rw [if_pos hp]
        rw [Finset.sum_congr rfl (fun j _ => if_pos (congrFun hp j))]
        rw [Finset.sum_const, Finset.card_univ, Fintype.card_fin, nsmul_eq_mul, mul_one]
      · rw [if_neg hp]
        obtain ⟨b, hb⟩ := hone n
        have hab : argmaxIdx K (logits n) hK ≠ b := by
          intro he
          apply hp
          show one_hot K (argmaxIdx K (logits n) hK) = labels n
          rw [he, hb]
        have hstep : (∑ j, if cls_preds N K logits hK n j = labels n j then (1:ℚ) else 0)
            = ∑ j, if one_hot K (argmaxIdx K (logits n) hK) j = one_hot K b j
                then (1:ℚ) else 0 := by
          refine Finset.sum_congr rfl (fun j _ => ?_)
          rw [hb]
          rfl
        rw [hstep]
        exact one_hot_row_agreements _ _ hab
    unfold mae_cls_acc
    rw [Finset.sum_congr rfl (fun n _ => hrow n)]
    rw [Finset.sum_ite, Finset.sum_const, Finset.sum_const, nsmul_eq_mul, nsmul_eq_mul]
    have hcards : ((Finset.univ.filter
          (fun n : Fin N => ¬ cls_preds N K logits hK n = labels n)).card : ℚ)
        = (N : ℚ) - ((Finset.univ.filter
          (fun n : Fin N => cls_preds N K logits hK n = labels n)).card : ℚ) := by
      have hadd := Finset.filter_card_add_filter_neg_card_eq_card
        (s := (Finset.univ : Finset (Fin N)))
        (p := fun n => cls_preds N K logits hK n = labels n)
      rw [Finset.card_univ, Fintype.card_fin] at hadd
      have : ((Finset.univ.filter
              (fun n : Fin N => cls_preds N K logits hK n = labels n)).card : ℚ)
            + ((Finset.univ.filter
              (fun n : Fin N => ¬ cls_preds N K logits hK n = labels n)).card : ℚ)
          = (N : ℚ) := by exact_mod_cast hadd
      linarith
    rw [hcards]
    have hN0 : (N : ℚ) ≠ 0 := Nat.cast_ne_zero.mpr (Nat.pos_iff_ne_zero.mp hN)
    have hK0 : (K : ℚ) ≠ 0 := Nat.cast_ne_zero.mpr (Nat.pos_iff_ne_zero.mp hK)
    rw [show ((N * K : ℕ) : ℚ) = (N : ℚ) * (K : ℚ) by push_cast; ring]
    field_simp
    ring
  · rfl

theorem cls_accuracy_agreement_rate_witness :
    mae_cls_acc 2 3 (fun _ => ![2, 1, 0]) (fun _ => ![0, 1, 0]) (by norm_num)
      = 1 - 2 * ((2 : ℚ) - ((Finset.univ.filter
          (fun n : Fin 2 => cls_preds 2 3 (fun _ => ![2, 1, 0]) (by norm_num) n
            = (fun _ : Fin 2 => ![0, 1, 0]) n)).card : ℚ))
        / ((2 : ℚ) * (3 : ℚ)) ∧
    exact_match_rate 2 3 (fun _ => ![2, 1, 0]) (fun _ => ![0, 1, 0]) (by norm_num)
      = ((Finset.univ.filter
          (fun n : Fin 2 => cls_preds 2 3 (fun _ => ![2, 1, 0]) (by norm_num) n
            = (fun _ : Fin 2 => ![0, 1, 0]) n)).card : ℚ) / (2 : ℚ) :=
  cls_accuracy_agreement_rate 2 3 (fun _ => ![2, 1, 0]) (fun _ => ![0, 1, 0])
    (by norm_num) (by norm_num)
    (fun _ => ⟨1, by
      funext j
      fin_cases j <;> simp [one_hot]⟩)

/-- C8 counterexample: with one sample, three classes, logits predicting
class 0 and the label one-hot at class 1, the elementwise mean
(preds == labels).mean() is 1/3 while the exact-match rate is 0, so the
accuracy returned by the classification loss is not the exact-match rate. -/
theorem cls_accuracy_counterexample :
    mae_cls_acc 1 3 (fun _ => ![2, 1, 0]) (fun _ => ![0, 1, 0]) (by norm_num)
      ≠ exact_match_rate 1 3 (fun _ => ![2, 1, 0]) (fun _ => ![0, 1, 0]) (by norm_num) := by
  have harg : argmaxIdx 3 ![2, 1, 0] (by norm_num) = 0 := rfl
  have hacc : mae_cls_acc 1 3 (fun _ => ![2, 1, 0]) (fun _ => ![0, 1, 0]) (by norm_num)
      = 1/3 := by
    unfold mae_cls_acc
    rw [Fin.sum_univ_one, Fin.sum_univ_three]
    norm_num [cls_preds, harg, one_hot, Fin.ext_iff]
  have hrate : exact_match_rate 1 3 (fun _ => ![2, 1, 0]) (fun _ => ![0, 1, 0])
      (by norm_num) = 0 := by
    unfold exact_match_rate
    have hemp : (Finset.univ.filter
        (fun n : Fin 1 => cls_preds 1 3 (fun _ => ![2, 1, 0]) (by norm_num) n
          = (fun _ : Fin 1 => ![0, 1, 0]) n)) = ∅ := by
      ext n
      simp only [Finset.mem_filter, Finset.mem_univ, true_and,
        Finset.not_mem_empty, iff_false]
      intro hrow
      have h0 := congrFun hrow 0
      simp only [cls_preds, harg, one_hot] at h0
      norm_num at h0
    rw [hemp]
    simp
  rw [hacc, hrate]
  norm_num

/-- C7 counterexample: create_patches applied to a single-channel 1x1 image
fails (the hard-coded reshape to 3 channels is undefined), so the patch
codec is not defined for arbitrary channel counts. -/
theorem create_patches_channel_counterexample :
    create_patches_checked 1 1 1 (fun _ _ _ => (5:ℚ)) = none := rfl

/-- C7 (amended): the patch codec is defined only for channel count 3 (the
reshape hard-codes 3 and fails for every other channel count on a nonempty
image); for 3 channels it returns the (h*h, p*p*3) sequence with patches
row-major over the grid and each patch interior flattened in (row, col,
channel) order. -/
theorem create_patches_layout :
    (∀ (c h p : ℕ) (x : Fin c → Fin (h*p) → Fin (h*p) → ℚ), c ≠ 3 → 0 < h*p →
      create_patches_checked c h p x = none) ∧
    (∀ (h p : ℕ) (x : Fin 3 → Fin (h*p) → Fin (h*p) → ℚ)
      (gr gc pr pc ch : ℕ) (hgr : gr < h) (hgc : gc < h) (hpr : pr < p) (hpc : pc < p)
      (hch : ch < 3),
      create_patches h p x
          ⟨gr * h + gc, by nlinarith⟩
          ⟨pr * (p*3) + pc * 3 + ch, by nlinarith⟩
        = x ⟨ch, hch⟩ ⟨gr * p + pr, by nlinarith⟩ ⟨gc * p + pc, by nlinarith⟩) := by
  constructor
  · intro c h p x hc hhp
    unfold create_patches_checked
    rw [dif_neg]
    intro he
    exact hc (Nat.eq_of_mul_eq_mul_right (Nat.mul_pos hhp hhp) he)
  · intro h p x gr gc pr pc ch hgr hgc hpr hpc hch
    have hh : 0 < h := Nat.lt_of_le_of_lt (Nat.zero_le gr) hgr
    have hp : 0 < p := Nat.lt_of_le_of_lt (Nat.zero_le pr) hpr
    have hp3 : 0 < p*3 := by omega
    have hsub : pc * 3 + ch < p*3 := by omega
    simp only [create_patches]
    refine tensor3_congr x (Fin.ext ?_) (Fin.ext ?_) (Fin.ext ?_)
    · show (pr * (p*3) + pc * 3 + ch) % (p*3) % 3 = ch
      rw [add_assoc, nat_block_mod hsub, nat_block_mod hch]
    · show (gr * h + gc) / h * p + (pr * (p*3) + pc * 3 + ch) / (p*3) = gr * p + pr
      rw [add_assoc, nat_block_div hp3 hsub, nat_block_div hh hgc]
    · show (gr * h + gc) % h * p + (pr * (p*3) + pc * 3 + ch) % (p*3) / 3 = gc * p + pc
      rw [add_assoc, nat_block_mod hsub, nat_block_mod hgc,
        nat_block_div (by norm_num) hch]

theorem create_patches_layout_witness :
    create_patches_checked 1 1 1 (fun _ _ _ => (7:ℚ)) = none ∧
    create_patches 1 1 (fun _ _ _ => (7:ℚ))
        ⟨0 * 1 + 0, by norm_num⟩ ⟨0 * (1*3) + 0 * 3 + 2, by norm_num⟩
      = (7:ℚ) :=
  ⟨create_patches_layout.1 1 1 1 (fun _ _ _ => (7:ℚ)) (by norm_num) (by norm_num),
   create_patches_layout.2 1 1 (fun _ _ _ => (7:ℚ)) 0 0 0 0 2
     (by norm_num) (by norm_num) (by norm_num) (by norm_num) (by norm_num)⟩

theorem sq_ne_three_mul_sq (h p : ℕ) (hp : 0 < p) : h*h ≠ p*p*3 := by
  intro he
  have hp' : p ≠ 0 := Nat.pos_iff_ne_zero.mp hp
  have hh' : h ≠ 0 := by
    intro h0
    rw [h0] at he
    have hpos : 0 < p*p*3 := by positivity
    omega
  have hfact := congrArg (fun m => m.factorization 3) he
  simp only at hfact
  rw [Nat.factorization_mul hh' hh'] at hfact
  rw [Nat.factorization_mul (Nat.mul_ne_zero hp' hp') (by norm_num : (3:ℕ) ≠ 0)] at hfact
  rw [Nat.factorization_mul hp' hp'] at hfact
  rw [Nat.Prime.factorization (p := 3) (by norm_num)] at hfact
  simp only [Finsupp.add_apply, Finsupp.single_eq_same] at hfact
  omega

/-- C9 counterexample: in the degenerate single-patch configuration
(img_size = patch_size, so L = 1) the broadcast of features (N, 1, D) with
mask (N, 1) succeeds, the product is discarded, and the function returns the
placeholder None without failing - refuting the claim that it fails
explicitly for every input. -/
theorem sup_contrastive_single_patch_returns_none :
    mae_supervised_contrastive_loss 1 1 3 (fun _ _ _ => 0) (fun _ _ => 0)
      = Except.ok none := rfl

/-- C9 (amended): for every model-shaped input with at least two patches per
grid side (L = h*h, D = p*p*3, h at least 2), the supervised contrastive
loss fails before reaching its return None line: the elementwise product
features * (1 - mask) of shapes (N, L, D) and (N, L) is not
broadcast-compatible (L = h*h never equals D = 3*p*p), so the function
raises a shape error - an explicit failure, though an accidental one, not a
NotImplemented error. -/
theorem sup_contrastive_broadcast_error (N h p : ℕ)
    (features : Fin N → Fin (h*h) → Fin (p*p*3) → ℚ) (mask : Fin N → Fin (h*h) → ℚ)
    (hN : 0 < N) (hp : 0 < p) (hh : 2 ≤ h) :
    mae_supervised_contrastive_loss N (h*h) (p*p*3) features mask
      = Except.error BroadcastError.shapeMismatch := by
  have h1 : ¬ (p*p*3 = h*h) := fun he => sq_ne_three_mul_sq h p hp he.symm
  have h2 : ¬ (p*p*3 = 1) := by nlinarith
  have h3 : ¬ (h*h = 1) := by nlinarith
  have hfalse : broadcastCompat [N, h*h, p*p*3] [N, h*h] = false := by
    simp [broadcastCompat, dimsCompat, h1, h2, h3]
  unfold mae_supervised_contrastive_loss
  rw [hfalse]
  simp

theorem sup_contrastive_broadcast_error_witness :
    mae_supervised_contrastive_loss 1 (2*2) (1*1*3) (fun _ _ _ => 0) (fun _ _ => 0)
      = Except.error BroadcastError.shapeMismatch :=
  sup_contrastive_broadcast_error 1 2 1 (fun _ _ _ => 0) (fun _ _ => 0)
    (by norm_num) (by norm_num) (by norm_num)

end MAE
